import Mathlib

/-!
Verification of the Music-Wizard audio fingerprinting engine
(backend/wizard/wizard.py, backend/database/models.py, backend/config.py).

The Python code is shallowly embedded:
spectrograms become lists of rows of rational numbers (the source holds
float dB values; we model real arithmetic exactly with rationals),
numpy index arrays become lists of natural-number pairs, Python ints
become Nat or Int, and the SQL store becomes an explicit list of rows.
Definition names follow the source names.
-/

namespace MusicWizard

/-! ### Constants (config.py and MusicWizard defaults) -/

/-- Sampling rate, config.py `SAMPLING_RATE` default 44100. -/
def SAMPLING_RATE : Nat := 44100

/-- Hop length, MusicWizard default `hop_length = 412`. -/
def hop_length : Nat := 412

/-- Frame rate, `SAMPLING_RATE / hop_length` (wizard.py line 78). -/
def frame_rate : ℚ := (SAMPLING_RATE : ℚ) / (hop_length : ℚ)

/-- Fan-out per anchor, MusicWizard default `fan_value = 9`. -/
def fan_value : Nat := 9

/-- Minimum admissible pair time delta, default `min_time_delta = 1`. -/
def min_time_delta : Int := 1

/-- Maximum admissible pair time delta, default `max_time_delta = 30`. -/
def max_time_delta : Int := 30

/-! ### Hash packing (wizard.py lines 233-274) -/

/-- Embeds `MusicWizard.generate_hash`:
`return (freq1 << 18) | (freq2 << 8) | delta_time`. -/
def generate_hash (freq1 freq2 delta_time : Nat) : Nat :=
  (freq1 <<< 18) ||| (freq2 <<< 8) ||| delta_time

/-- Embeds `MusicWizard.decode_hash`:
`delta_time = hash_value & 0xFF`, `freq2 = hash_value >> 8 & 0x3FF`,
`freq1 = hash_value >> 18 & 0x3FF`, returned as `(freq1, freq2, delta_time)`. -/
def decode_hash (hash_value : Nat) : Nat × Nat × Nat :=
  let delta_time := hash_value &&& 0xFF
  let freq2 := hash_value >>> 8 &&& 0x3FF
  let freq1 := hash_value >>> 18 &&& 0x3FF
  (freq1, freq2, delta_time)

/-! ### Spectrogram and the peak picker (wizard.py lines 203-231)

The spectrogram produced by `apply_stft` is a numpy array of shape
`(bins, frames)`: the row index is the frequency bin, the column index the
time frame. We embed it as a list of rows of rationals (exact stand-ins
for the float dB values). -/

/-- A spectrogram: row index = frequency bin, column index = time frame. -/
abbrev Spectrogram := List (List ℚ)

/-- Number of frequency-bin rows. -/
def rowsOf (S : Spectrogram) : Nat := S.length

/-- Number of time-frame columns (length of the first row). -/
def colsOf (S : Spectrogram) : Nat := (S.headD []).length

/-- A numpy 2-D array is rectangular: every row has the same length. -/
def Rectangular (S : Spectrogram) : Prop := ∀ row ∈ S, row.length = colsOf S

/-- Cell access `S[i, j]`, defaulting to 0 out of range (all uses are in range). -/
def getCell (S : Spectrogram) (i j : Nat) : ℚ := (S.getD i []).getD j 0

/-- Index reflection of the scipy ndimage boundary mode "reflect"
(`(d c b a | a b c d | d c b a)`), the default mode of
`scipy.ndimage.maximum_filter`. -/
def reflectIdx (n : Nat) (i : Int) : Nat :=
  if i % (2 * n) < n then (i % (2 * n)).toNat else (2 * n - 1 - i % (2 * n)).toNat

/-- The 19 per-axis offsets `-9 ... 9` of the `(19, 19)` neighborhood. -/
def windowOffsets : List Int := (List.range 19).map (fun k => (k : Int) - 9)

/-- The values in the `(19, 19)` reflected neighborhood of cell `(i, j)`. -/
def windowVals (S : Spectrogram) (i j : Nat) : List ℚ :=
  windowOffsets.flatMap (fun a =>
    windowOffsets.map (fun b =>
      getCell S (reflectIdx (rowsOf S) ((i : Int) + a))
        (reflectIdx (colsOf S) ((j : Int) + b))))

/-- Maximum of a list of rationals (only applied to nonempty windows). -/
def listMax (l : List ℚ) : ℚ := l.foldl max (l.headD 0)

/-- One cell of `maximum_filter(spectrogram, size=(19, 19))` (wizard.py line 219). -/
def maximum_filter_cell (S : Spectrogram) (i j : Nat) : ℚ := listMax (windowVals S i j)

/-- One cell of the boolean mask `spectrogram == locally_maximized_spectrogram`
(wizard.py line 222). -/
def isLocalMax (S : Spectrogram) (i j : Nat) : Bool :=
  getCell S i j == maximum_filter_cell S i j

/-- The row-major masked value list `spectrogram[peaks_only_matrix]`. -/
def maskedVals (S : Spectrogram) : List ℚ :=
  (List.range (rowsOf S)).flatMap (fun i =>
    ((List.range (colsOf S)).filter (fun j => isLocalMax S i j)).map
      (fun j => getCell S i j))

/-- The adaptive threshold `spectrogram[peaks_only_matrix].mean()`
(wizard.py line 225). -/
def thresholdOf (S : Spectrogram) : ℚ :=
  (maskedVals S).sum / ((maskedVals S).length : ℚ)

/-- The cell test of `np.argwhere(peaks_only_matrix & (spectrogram >= threshold))`. -/
def peakPred (S : Spectrogram) (i j : Nat) : Bool :=
  isLocalMax S i j && decide (thresholdOf S ≤ getCell S i j)

/-- Embeds `MusicWizard.get_peak_points`: the `(bin, frame)` coordinates passing
the mask, in the row-major order produced by `np.argwhere`. -/
def get_peak_points (S : Spectrogram) : List (Nat × Nat) :=
  (List.range (rowsOf S)).flatMap (fun i =>
    ((List.range (colsOf S)).filter (fun j => peakPred S i j)).map (fun j => (i, j)))

/-! ### Fingerprint creation (wizard.py lines 276-332) -/

/-- Stable insertion of a fingerprint into a list already sorted ascending by
time step (second component). -/
def insertByTime (x : Nat × Nat) : List (Nat × Nat) → List (Nat × Nat)
  | [] => [x]
  | y :: ys => if x.2 ≤ y.2 then x :: y :: ys else y :: insertByTime x ys

/-- Stable ascending sort by time step, matching the stable Python
`fingerprints.sort(key=lambda x: x[1])` (wizard.py line 330). -/
def sortByTime : List (Nat × Nat) → List (Nat × Nat)
  | [] => []
  | x :: xs => insertByTime x (sortByTime xs)

/-- The inner fan-out loop of `create_fingerprint` for one anchor index:
pair indices `1 ... fan_value`, bound check against `len(peaks)`, and the
`min_time_delta <= delta <= max_time_delta` window check. -/
def pairStep (peaks : List (Nat × Nat)) (anchor_idx : Nat) : List (Nat × Nat) :=
  (List.range fan_value).filterMap (fun k =>
    if anchor_idx + (k + 1) < peaks.length then
      let p1 := peaks.getD anchor_idx (0, 0)
      let p2 := peaks.getD (anchor_idx + (k + 1)) (0, 0)
      let delta : Int := (p2.2 : Int) - (p1.2 : Int)
      if min_time_delta ≤ delta ∧ delta ≤ max_time_delta then
        some (generate_hash p1.1 p2.1 delta.toNat, p1.2)
      else none
    else none)

/-- Embeds `MusicWizard.create_fingerprint`: fan out every anchor over the
peak list returned by `get_peak_points`, then sort by anchor time step. -/
def create_fingerprint (S : Spectrogram) : List (Nat × Nat) :=
  sortByTime ((List.range (get_peak_points S).length).flatMap
    (fun a => pairStep (get_peak_points S) a))

/-! ### The all-zero spectrogram, used for concrete evaluations -/

/-- The all-zero spectrogram with `r` rows (bins) and `c` columns (frames). -/
def constZero (r c : Nat) : Spectrogram := List.replicate r (List.replicate c 0)

/-! ### Claim C2: ordering of the peak list -/

/-- The ordering claimed by the spec: ascending primarily by time frame,
secondarily by frequency bin. Peaks are `(bin, frame)` pairs. -/
def frameThenBin (p q : Nat × Nat) : Prop := p.2 < q.2 ∨ (p.2 = q.2 ∧ p.1 ≤ q.1)

/-- The order actually produced by `np.argwhere` on a `(bins, frames)` array:
row-major, ascending primarily by frequency bin, secondarily by time frame. -/
def binThenFrame (p q : Nat × Nat) : Prop := p.1 < q.1 ∨ (p.1 = q.1 ∧ p.2 ≤ q.2)

instance : DecidableRel frameThenBin := fun p q => by
  unfold frameThenBin; exact inferInstance

instance : DecidableRel binThenFrame := fun p q => by
  unfold binThenFrame; exact inferInstance

/-! ### Claim C10: nonempty spectrograms always yield at least one peak -/

/-- All cell values of the spectrogram in row-major order. -/
def allVals (S : Spectrogram) : List ℚ :=
  (List.range (rowsOf S)).flatMap (fun i =>
    (List.range (colsOf S)).map (fun j => getCell S i j))

/-! ### Claim C5: bit width of emitted hashes -/

/-! ### The store (database/models.py) and ingestion (wizard.py lines 334-401) -/

/-- A row of the `songs` table (models.py `Song`); `yt_url` carries a unique
constraint (models.py line 32). -/
structure SongRow where
  id : Nat
  title : String
  yt_url : String
  artist : String
  thumbnail : String
deriving DecidableEq

/-- A row of the `song_fingerprints` table (models.py `SongFingerPrints`). -/
structure FingerprintRow where
  song_id : Nat
  fingerprint_hash : Nat
  fingerprint_index : Nat
deriving DecidableEq

/-- The relational store: both tables plus the next autoincrement song id. -/
structure Store where
  songs : List SongRow
  fingerprints : List FingerprintRow
  next_id : Nat
deriving DecidableEq

/-- Embeds the store interaction of `MusicWizard.create_and_store_fingerprint`
(wizard.py lines 372-401); the `fingerprints` argument stands for the
`(hash, time_step)` list computed from the audio file. Modelled SQLAlchemy
semantics: `session.commit()` on a `Song` whose `yt_url` already exists
violates the unique constraint and raises; the except branch calls
`session.rollback()`, which restores the pre-transaction store and leaves the
pending instance without a primary key, so the final `return song.id` yields
`None`. On success the song receives the next id and the song row plus all
fingerprint rows are committed together. -/
def create_and_store_fingerprint (db : Store)
    (title author thumbnail video_id : String)
    (fingerprints : List (Nat × Nat)) : Store × Option Nat :=
  if db.songs.any (fun s => s.yt_url == video_id) then
    (db, none)
  else
    let sid := db.next_id
    let song : SongRow := ⟨sid, title, video_id, author, thumbnail⟩
    let rows := fingerprints.map (fun ht => FingerprintRow.mk sid ht.1 ht.2)
    (⟨db.songs ++ [song], db.fingerprints ++ rows, sid + 1⟩, some sid)

/-- A store already holding the track with `yt_url = "abc"`. -/
def dbDup : Store := ⟨[⟨1, "t", "abc", "a", "u"⟩], [], 2⟩

/-! ### The matcher (wizard.py lines 403-489)

The function is parameterized by the stored `song_fingerprints` rows (the
table contents), by the configured `CONFIDENCE_THRESHOLD`, and by the query
fingerprint list. A stored row is `(fingerprint_hash, fingerprint_index,
song_id)`, the column order selected at wizard.py lines 432-437. -/

/-- A stored fingerprint row `(hash, index, song_id)` as selected by the query. -/
abbrev DbRow := Nat × Nat × Nat

/-- Appends a timestamp under a hash key, preserving dict insertion order:
one `hash_values[h].append(t)` step on the defaultdict. -/
def assocAppend : List (Nat × List Nat) → Nat → Nat → List (Nat × List Nat)
  | [], h, t => [(h, [t])]
  | (k, ts) :: rest, h, t =>
    if k == h then (k, ts ++ [t]) :: rest else (k, ts) :: assocAppend rest h t

/-- The multimap `hash_values = {hash: [t1, t2, ...]}` (wizard.py lines 424-426). -/
def buildHashValues (fingerprint : List (Nat × Nat)) : List (Nat × List Nat) :=
  fingerprint.foldl (fun m ht => assocAppend m ht.1 ht.2) []

/-- The timestamp list `hash_values[db_hash]` of one hash. -/
def lookupTimes (m : List (Nat × List Nat)) (h : Nat) : List Nat :=
  ((m.find? (fun kv => kv.1 == h)).map (fun kv => kv.2)).getD []

/-- The db lookup (wizard.py lines 432-440): every stored row whose hash is
among the query keys. The SQL row order is backend-defined; the embedding
keeps store order. -/
def queryOutput (db : List DbRow) (fingerprint : List (Nat × Nat)) : List DbRow :=
  db.filter (fun r => (buildHashValues fingerprint).any (fun kv => kv.1 == r.1))

/-- The count `hash_counter[hash]` over the looked-up rows (wizard.py line 444). -/
def hashCount (db : List DbRow) (fingerprint : List (Nat × Nat)) (h : Nat) : Nat :=
  (queryOutput db fingerprint).countP (fun r => r.1 == h)

/-- Common-hash suppression (wizard.py lines 443-449): keep the rows whose
hash count is strictly below `len(query_output) * 0.10`. (For the operands
that occur, the float product `len * 0.10` rounds to the same comparisons as
the exact rational `len / 10`, which we use.) -/
def filteredRows (db : List DbRow) (fingerprint : List (Nat × Nat)) : List DbRow :=
  (queryOutput db fingerprint).filter (fun r =>
    decide ((hashCount db fingerprint r.1 : ℚ) <
      ((queryOutput db fingerprint).length : ℚ) * (1 / 10)))

/-- Adds one vote to an offset counter, preserving insertion order. -/
def bumpInner : List (Int × Nat) → Int → List (Int × Nat)
  | [], d => [(d, 1)]
  | (k, c) :: rest, d =>
    if k == d then (k, c + 1) :: rest else (k, c) :: bumpInner rest d

/-- Adds one vote to `votes[song_id][delta]`, preserving insertion order of
the outer defaultdict. -/
def bumpVotes : List (Nat × List (Int × Nat)) → Nat → Int →
    List (Nat × List (Int × Nat))
  | [], sid, d => [(sid, [(d, 1)])]
  | (s, cnt) :: rest, sid, d =>
    if s == sid then (s, bumpInner cnt d) :: rest
    else (s, cnt) :: bumpVotes rest sid d

/-- The offset-histogram voting loop (wizard.py lines 451-463) over a given
row list: for each row and each query timestamp of its hash, vote for
`delta = db_offset - timestamp` unless `delta < 0`. -/
def votesFrom (fingerprint : List (Nat × Nat)) (rows : List DbRow) :
    List (Nat × List (Int × Nat)) :=
  rows.foldl (fun v r =>
    (lookupTimes (buildHashValues fingerprint) r.1).foldl (fun v2 (t : Nat) =>
      if ((r.2.1 : Int) - (t : Int)) < 0 then v2
      else bumpVotes v2 r.2.2 ((r.2.1 : Int) - (t : Int))) v) []

/-- The votes dictionary of the matcher: voting over the surviving rows. -/
def votesOf (db : List DbRow) (fingerprint : List (Nat × Nat)) :
    List (Nat × List (Int × Nat)) :=
  votesFrom fingerprint (filteredRows db fingerprint)

/-- The first maximal-count entry of an offset counter:
`counter.most_common(1)[0]`, which via `heapq.nlargest` keeps the
earliest-inserted entry on ties. (Python raises on an empty counter; the
voting loop only ever creates nonempty counters, and the embedding returns
`(0, 0)` there.) -/
def mostCommon1 : List (Int × Nat) → Int × Nat
  | [] => (0, 0)
  | [x] => x
  | x :: y :: rest => if (mostCommon1 (y :: rest)).2 > x.2 then mostCommon1 (y :: rest) else x

/-- The per-track candidates `(song_id, delta, count)` (wizard.py lines
466-473), in `votes.items()` insertion order. -/
def matchCandidates (db : List DbRow) (fingerprint : List (Nat × Nat)) :
    List (Nat × Int × Nat) :=
  (votesOf db fingerprint).map (fun sc => (sc.1, mostCommon1 sc.2))

/-- Stable insertion for the descending sort by vote count. -/
def insertDesc (x : Nat × Int × Nat) : List (Nat × Int × Nat) → List (Nat × Int × Nat)
  | [] => [x]
  | y :: ys => if x.2.2 ≥ y.2.2 then x :: y :: ys else y :: insertDesc x ys

/-- Stable descending sort by vote count, matching the stable Python
`sorted(match_candidates, key=lambda x: x[2], reverse=True)`. -/
def sortDesc : List (Nat × Int × Nat) → List (Nat × Int × Nat)
  | [] => []
  | x :: xs => insertDesc x (sortDesc xs)

/-- The top three candidates (wizard.py line 476). -/
def topMatches (db : List DbRow) (fingerprint : List (Nat × Nat)) :
    List (Nat × Int × Nat) :=
  (sortDesc (matchCandidates db fingerprint)).take 3

/-- The final result list (wizard.py lines 478-487): timestamp
`abs(delta or 0) / frame_rate` (`delta or 0` equals `delta`), confidence
`count / max(1, len(filtered_hashes))`, kept when at least the configured
`CONFIDENCE_THRESHOLD`. -/
def resultsOf (db : List DbRow) (threshold : ℚ) (fingerprint : List (Nat × Nat)) :
    List (Nat × ℚ × ℚ) :=
  (topMatches db fingerprint).filterMap (fun c =>
    if threshold ≤ (c.2.2 : ℚ) / ((max 1 (filteredRows db fingerprint).length : Nat) : ℚ)
    then some (c.1, |(c.2.1 : ℚ)| / frame_rate,
      (c.2.2 : ℚ) / ((max 1 (filteredRows db fingerprint).length : Nat) : ℚ))
    else none)

/-- Embeds `MusicWizard.match_fingerprints_from_db`, including the final
`return results if results else None` (wizard.py line 489). -/
def match_fingerprints_from_db (db : List DbRow) (threshold : ℚ)
    (fingerprint : List (Nat × Nat)) : Option (List (Nat × ℚ × ℚ)) :=
  if resultsOf db threshold fingerprint = [] then none
  else some (resultsOf db threshold fingerprint)

/-- A store with a single row matching the single-hash query `fp8`. -/
def db8 : List DbRow := [(7, 0, 1)]

/-- A query hitting the single row of `db8`. -/
def fp8 : List (Nat × Nat) := [(7, 0)]

/-- A store where hash 100 appears on two rows of track 1 at offsets 5 and 3,
padded by 19 rows of the common hash 200 (which suppression removes). -/
def db6 : List DbRow := (100, 5, 1) :: (100, 3, 1) :: List.replicate 19 (200, 0, 9)

/-- A query with hash 100 at time 0 and hash 200 at time 50. -/
def fp6 : List (Nat × Nat) := [(100, 0), (200, 50)]

/-- A store where hash 100 appears on one row of track 1 at offset 5, padded
by 10 rows of the common hash 200 (which suppression removes). -/
def db9 : List DbRow := (100, 5, 1) :: List.replicate 10 (200, 0, 2)

/-- A query holding hash 100 at anchor time 0 twice, plus hash 200 once. -/
def fp9 : List (Nat × Nat) := [(100, 0), (100, 0), (200, 3)]

/-- Descending-by-count relation on `(song_id, delta, count)` candidates. -/
def countGE (a b : Nat × Int × Nat) : Prop := b.2.2 ≤ a.2.2

/-- Descending-by-confidence relation on `(song_id, timestamp, confidence)`. -/
def confGE (a b : Nat × ℚ × ℚ) : Prop := b.2.2 ≤ a.2.2

/-- The count stored under offset `d` in one offset counter (0 when absent). -/
def innerCount (cnt : List (Int × Nat)) (d : Int) : Nat :=
  ((cnt.find? (fun p => p.1 == d)).map (fun p => p.2)).getD 0

/-- The vote count of `votes[sid][d]` in the votes structure (0 when absent). -/
def voteCount (v : List (Nat × List (Int × Nat))) (sid : Nat) (d : Int) : Nat :=
  ((v.find? (fun sc => sc.1 == sid)).map (fun sc => innerCount sc.2 d)).getD 0

/-- Well-formedness of the votes structure: song keys are pairwise distinct
and so are the offset keys of each counter (dictionaries have unique keys). -/
def WFVotes (v : List (Nat × List (Int × Nat))) : Prop :=
  (v.map (fun sc => sc.1)).Nodup ∧ ∀ sc ∈ v, (sc.2.map (fun p => p.1)).Nodup

/-- The proposition that some query whose hashes each occur at pairwise
distinct anchor times — some hash at more than one — together with some
store contents and threshold makes the matcher return a candidate whose
confidence exceeds 1. -/
def distinctTimesConfidenceClaim : Prop :=
  ∃ (db : List DbRow) (thr : ℚ) (fp : List (Nat × Nat)),
    (∀ kv ∈ buildHashValues fp, kv.2.Nodup) ∧
    (∃ kv ∈ buildHashValues fp, 1 < kv.2.length) ∧
    ∃ l, match_fingerprints_from_db db thr fp = some l ∧ ∃ p ∈ l, 1 < p.2.2

/-! ### Theorems -/

/-- The packed hash of in-range fields equals the plain arithmetic sum
`f1 * 2 ^ 18 + f2 * 2 ^ 8 + dt`: the three bit fields do not overlap. -/
theorem generate_hash_eq_add (f1 f2 dt : Nat) (h2 : f2 ≤ 1023) (h3 : dt ≤ 255) :
    generate_hash f1 f2 dt = f1 * 2 ^ 18 + f2 * 2 ^ 8 + dt := by
  unfold generate_hash
  have e1 : f1 <<< 18 ||| f2 <<< 8 = f1 * 2 ^ 18 + f2 * 2 ^ 8 := by
    rw [Nat.shiftLeft_eq, Nat.shiftLeft_eq, Nat.mul_comm f1 (2 ^ 18),
      ← Nat.mul_add_lt_is_or (by omega) f1, Nat.mul_comm (2 ^ 18) f1]
  rw [e1]
  have e2 : f1 * 2 ^ 18 + f2 * 2 ^ 8 = 2 ^ 8 * (f1 * 2 ^ 10 + f2) := by ring
  rw [e2, ← Nat.mul_add_lt_is_or (by omega) (f1 * 2 ^ 10 + f2)]

/-- C1. Hash round-trip: for all `f1, f2` in `[0, 1023]` and `dt` in `[0, 255]`,
`decode_hash (generate_hash f1 f2 dt) = (f1, f2, dt)`. -/
theorem decode_generate_hash_roundtrip (f1 f2 dt : Nat)
    (h1 : f1 ≤ 1023) (h2 : f2 ≤ 1023) (h3 : dt ≤ 255) :
    decode_hash (generate_hash f1 f2 dt) = (f1, f2, dt) := by
  rw [generate_hash_eq_add f1 f2 dt h2 h3]
  unfold decode_hash
  have m8 : (0xFF : Nat) = 2 ^ 8 - 1 := rfl
  have m10 : (0x3FF : Nat) = 2 ^ 10 - 1 := rfl
  simp only [m8, m10, Nat.and_pow_two_sub_one_eq_mod, Nat.shiftRight_eq_div_pow]
  refine Prod.ext ?_ (Prod.ext ?_ ?_) <;> simp only [] <;> omega

/-- Witness for C1 at the concrete input `(3, 5, 7)`. -/
theorem decode_generate_hash_roundtrip_witness :
    decode_hash (generate_hash 3 5 7) = (3, 5, 7) :=
  decode_generate_hash_roundtrip 3 5 7 (by decide) (by decide) (by decide)

/-! ### Generic fold-max and reflection lemmas -/

theorem le_foldl_max (l : List ℚ) (d : ℚ) : d ≤ l.foldl max d := by
  induction l generalizing d with
  | nil => exact le_refl d
  | cons x xs ih => exact le_trans (le_max_left d x) (ih (max d x))

theorem foldl_max_le (l : List ℚ) (d b : ℚ) (hd : d ≤ b) (h : ∀ x ∈ l, x ≤ b) :
    l.foldl max d ≤ b := by
  induction l generalizing d with
  | nil => exact hd
  | cons x xs ih =>
    exact ih (max d x) (max_le hd (h x (by simp))) (fun y hy => h y (by simp [hy]))

theorem mem_le_foldl_max (l : List ℚ) : ∀ (d x : ℚ), x ∈ l → x ≤ l.foldl max d := by
  induction l with
  | nil => intro d x hx; cases hx
  | cons y ys ih =>
    intro d x hx
    rcases List.mem_cons.mp hx with h | h
    · subst h; exact le_trans (le_max_right d x) (le_foldl_max ys (max d x))
    · exact ih (max d y) x h

theorem foldl_max_mem (l : List ℚ) : ∀ d : ℚ, l.foldl max d ∈ l ∨ l.foldl max d = d := by
  induction l with
  | nil => intro d; right; rfl
  | cons y ys ih =>
    intro d
    rw [List.foldl_cons]
    rcases ih (max d y) with h | h
    · left; exact List.mem_cons_of_mem y h
    · rw [h]
      rcases max_choice d y with h2 | h2
      · right; exact h2
      · left; rw [h2]; exact List.mem_cons_self y ys

theorem headD_mem (l : List ℚ) (h : l ≠ []) : l.headD 0 ∈ l := by
  cases l with
  | nil => exact absurd rfl h
  | cons y ys => exact List.mem_cons_self y ys

theorem listMax_mem (l : List ℚ) (h : l ≠ []) : listMax l ∈ l := by
  unfold listMax
  rcases foldl_max_mem l (l.headD 0) with h2 | h2
  · exact h2
  · rw [h2]; exact headD_mem l h

theorem le_listMax (l : List ℚ) (x : ℚ) (hx : x ∈ l) : x ≤ listMax l :=
  mem_le_foldl_max l (l.headD 0) x hx

theorem listMax_le (l : List ℚ) (b : ℚ) (hne : l ≠ []) (h : ∀ x ∈ l, x ≤ b) :
    listMax l ≤ b :=
  foldl_max_le l (l.headD 0) b (h (l.headD 0) (headD_mem l hne)) h

theorem reflectIdx_lt (n : Nat) (i : Int) (hn : 0 < n) : reflectIdx n i < n := by
  unfold reflectIdx
  have hpos : (0 : Int) < 2 * n := by omega
  have h1 : 0 ≤ i % (2 * n) := Int.emod_nonneg i (by omega)
  have h2 : i % (2 * n) < 2 * n := Int.emod_lt_of_pos i hpos
  split <;> omega

theorem reflectIdx_self (n i : Nat) (h : i < n) : reflectIdx n (i : Int) = i := by
  unfold reflectIdx
  have he : (i : Int) % (2 * n) = i := Int.emod_eq_of_lt (by omega) (by omega)
  rw [he, if_pos (by omega)]
  omega

theorem mem_insertByTime (x y : Nat × Nat) (l : List (Nat × Nat)) :
    x ∈ insertByTime y l ↔ x = y ∨ x ∈ l := by
  induction l with
  | nil => simp [insertByTime]
  | cons z zs ih =>
    unfold insertByTime
    split
    · simp
    · simp only [List.mem_cons, ih]
      tauto

theorem mem_sortByTime (x : Nat × Nat) (l : List (Nat × Nat)) :
    x ∈ sortByTime l ↔ x ∈ l := by
  induction l with
  | nil => simp [sortByTime]
  | cons y ys ih =>
    unfold sortByTime
    rw [mem_insertByTime, ih]
    simp

theorem getCell_constZero (r c i j : Nat) : getCell (constZero r c) i j = 0 := by
  unfold getCell constZero
  simp only [List.getD_eq_getElem?_getD, List.getElem?_replicate]
  rcases Nat.lt_or_ge i r with h | h
  · rw [if_pos h, Option.getD_some, List.getElem?_replicate]
    split <;> simp
  · rw [if_neg (by omega), Option.getD_none]
    simp

theorem windowVals_constZero (r c i j : Nat) :
    ∀ x ∈ windowVals (constZero r c) i j, x = 0 := by
  intro x hx
  unfold windowVals at hx
  rcases List.mem_flatMap.mp hx with ⟨a, _, hx2⟩
  rcases List.mem_map.mp hx2 with ⟨b, _, hb⟩
  rw [← hb]
  exact getCell_constZero r c _ _

theorem listMax_all_zero (l : List ℚ) (h : ∀ x ∈ l, x = 0) : listMax l = 0 := by
  cases l with
  | nil => rfl
  | cons y ys =>
    have hy : y = 0 := h y (List.mem_cons_self y ys)
    refine le_antisymm (listMax_le _ 0 (by simp) (fun x hx => le_of_eq (h x hx))) ?_
    calc (0 : ℚ) = y := hy.symm
      _ ≤ _ := le_listMax _ y (List.mem_cons_self y ys)

theorem isLocalMax_constZero (r c i j : Nat) :
    isLocalMax (constZero r c) i j = true := by
  unfold isLocalMax maximum_filter_cell
  rw [getCell_constZero, listMax_all_zero _ (windowVals_constZero r c i j)]
  simp

theorem maskedVals_constZero (r c : Nat) : ∀ x ∈ maskedVals (constZero r c), x = 0 := by
  intro x hx
  unfold maskedVals at hx
  rcases List.mem_flatMap.mp hx with ⟨i, _, hx2⟩
  rcases List.mem_map.mp hx2 with ⟨j, _, hj⟩
  rw [← hj]
  exact getCell_constZero r c _ _

theorem thresholdOf_constZero (r c : Nat) : thresholdOf (constZero r c) = 0 := by
  unfold thresholdOf
  rw [List.sum_eq_zero (maskedVals_constZero r c), zero_div]

theorem peakPred_constZero (r c i j : Nat) : peakPred (constZero r c) i j = true := by
  unfold peakPred
  rw [isLocalMax_constZero, thresholdOf_constZero, getCell_constZero]
  simp

theorem rowsOf_constZero (r c : Nat) : rowsOf (constZero r c) = r := by
  simp [rowsOf, constZero]

theorem colsOf_constZero (r c : Nat) (hr : 0 < r) : colsOf (constZero r c) = c := by
  unfold colsOf constZero
  cases r with
  | zero => omega
  | succ n => simp [List.replicate_succ]

/-- On an all-zero spectrogram every cell is a peak, so `get_peak_points`
returns all coordinates in row-major order. -/
theorem get_peak_points_constZero (r c : Nat) (hr : 0 < r) :
    get_peak_points (constZero r c) =
      (List.range r).flatMap (fun i => (List.range c).map (fun j => (i, j))) := by
  unfold get_peak_points
  rw [rowsOf_constZero, colsOf_constZero r c hr]
  have hfilter : ∀ i : Nat, (List.range c).filter (fun j => peakPred (constZero r c) i j)
      = List.range c :=
    fun i => List.filter_eq_self.mpr (fun j _ => peakPred_constZero r c i j)
  simp only [hfilter]

/-- C2 counterexample: on the all-zero 2 x 2 spectrogram the peak list is
`[(0,0), (0,1), (1,0), (1,1)]`, which is not sorted by frame first:
`(0,1)` (frame 1) precedes `(1,0)` (frame 0). -/
theorem get_peak_points_not_sorted_by_frame :
    ¬ List.Sorted frameThenBin (get_peak_points (constZero 2 2)) := by
  rw [get_peak_points_constZero 2 2 (by decide)]
  decide

/-- Appending pairwise-related blocks keeps a flatMap pairwise. -/
theorem pairwise_flatMap_of {α β : Type} {R : β → β → Prop} {l : List α}
    {f : α → List β} (h1 : ∀ a ∈ l, List.Pairwise R (f a))
    (h2 : List.Pairwise (fun a b => ∀ x ∈ f a, ∀ y ∈ f b, R x y) l) :
    List.Pairwise R (l.flatMap f) := by
  induction l with
  | nil => simp
  | cons a as ih =>
    rcases List.pairwise_cons.mp h2 with ⟨ha, h2t⟩
    rw [List.flatMap_cons, List.pairwise_append]
    refine ⟨h1 a (List.mem_cons_self a as),
      ih (fun b hb => h1 b (List.mem_cons_of_mem a hb)) h2t, ?_⟩
    intro x hx y hy
    rcases List.mem_flatMap.mp hy with ⟨b, hb, hyb⟩
    exact ha b hb x hx y hyb

/-- C2 amended: for every spectrogram, the peak list `create_fingerprint`
iterates over is sorted in row-major order: ascending primarily by frequency
bin, secondarily by time frame. -/
theorem get_peak_points_sorted_row_major (S : Spectrogram) :
    List.Sorted binThenFrame (get_peak_points S) := by
  unfold get_peak_points
  refine pairwise_flatMap_of ?_ ?_
  · intro i _
    rw [List.pairwise_map]
    refine List.Pairwise.imp ?_
      (List.Pairwise.filter _ (List.pairwise_lt_range (colsOf S)))
    intro a b hab
    exact Or.inr ⟨rfl, le_of_lt hab⟩
  · refine List.Pairwise.imp ?_ (List.pairwise_lt_range (rowsOf S))
    intro a b hab x hx y hy
    rcases List.mem_map.mp hx with ⟨ja, _, hja⟩
    rcases List.mem_map.mp hy with ⟨jb, _, hjb⟩
    rw [← hja, ← hjb]
    exact Or.inl hab

/-- C10. Every nonempty spectrogram produces at least one peak: the global
maximum cell equals its maximum-filtered value and is at least the mean over
candidate cells, so it passes the adaptive threshold. -/
theorem get_peak_points_nonempty (S : Spectrogram) (hr : 0 < rowsOf S)
    (hc : 0 < colsOf S) (_hrect : Rectangular S) : get_peak_points S ≠ [] := by
  have hv0 : getCell S 0 0 ∈ allVals S :=
    List.mem_flatMap.mpr ⟨0, List.mem_range.mpr hr,
      List.mem_map.mpr ⟨0, List.mem_range.mpr hc, rfl⟩⟩
  have hvne : allVals S ≠ [] := List.ne_nil_of_mem hv0
  rcases List.mem_flatMap.mp (listMax_mem (allVals S) hvne) with ⟨i, hi, hmap⟩
  rcases List.mem_map.mp hmap with ⟨j, hj, hje⟩
  have hall : ∀ a b : Nat, a < rowsOf S → b < colsOf S →
      getCell S a b ≤ listMax (allVals S) := by
    intro a b ha hb
    exact le_listMax _ _ (List.mem_flatMap.mpr ⟨a, List.mem_range.mpr ha,
      List.mem_map.mpr ⟨b, List.mem_range.mpr hb, rfl⟩⟩)
  have hwle : ∀ x ∈ windowVals S i j, x ≤ listMax (allVals S) := by
    intro x hx
    unfold windowVals at hx
    rcases List.mem_flatMap.mp hx with ⟨a, _, hx2⟩
    rcases List.mem_map.mp hx2 with ⟨b, _, hbe⟩
    rw [← hbe]
    exact hall _ _ (reflectIdx_lt _ _ hr) (reflectIdx_lt _ _ hc)
  have hself : getCell S i j ∈ windowVals S i j := by
    unfold windowVals
    have h0 : (0 : Int) ∈ windowOffsets := by decide
    refine List.mem_flatMap.mpr ⟨0, h0, List.mem_map.mpr ⟨0, h0, ?_⟩⟩
    rw [Int.add_zero, Int.add_zero, reflectIdx_self _ _ (List.mem_range.mp hi),
      reflectIdx_self _ _ (List.mem_range.mp hj)]
  have hmf : maximum_filter_cell S i j = getCell S i j := by
    unfold maximum_filter_cell
    refine le_antisymm ?_ (le_listMax _ _ hself)
    refine listMax_le _ _ (List.ne_nil_of_mem hself) ?_
    intro x hx
    calc x ≤ listMax (allVals S) := hwle x hx
      _ = getCell S i j := hje.symm
  have hlm : isLocalMax S i j = true := by
    unfold isLocalMax
    rw [hmf]
    simp
  have hmm : getCell S i j ∈ maskedVals S :=
    List.mem_flatMap.mpr ⟨i, hi,
      List.mem_map.mpr ⟨j, List.mem_filter.mpr ⟨hj, hlm⟩, rfl⟩⟩
  have hmlen : 0 < ((maskedVals S).length : ℚ) := by
    exact_mod_cast List.length_pos.mpr (List.ne_nil_of_mem hmm)
  have hmall : ∀ x ∈ maskedVals S, x ≤ listMax (allVals S) := by
    intro x hx
    unfold maskedVals at hx
    rcases List.mem_flatMap.mp hx with ⟨a, ha, hx2⟩
    rcases List.mem_map.mp hx2 with ⟨b, hbf, hbe⟩
    rw [← hbe]
    exact hall a b (List.mem_range.mp ha)
      (List.mem_range.mp (List.mem_of_mem_filter hbf))
  have hth : thresholdOf S ≤ getCell S i j := by
    unfold thresholdOf
    rw [div_le_iff₀ hmlen]
    calc (maskedVals S).sum ≤ (maskedVals S).length • listMax (allVals S) :=
          List.sum_le_card_nsmul _ _ hmall
      _ = listMax (allVals S) * ((maskedVals S).length : ℚ) := by
          rw [nsmul_eq_mul]; ring
      _ = getCell S i j * ((maskedVals S).length : ℚ) := by rw [hje]
  have hpp : peakPred S i j = true := by
    unfold peakPred
    rw [hlm]
    simpa using hth
  exact List.ne_nil_of_mem (List.mem_flatMap.mpr ⟨i, hi,
    List.mem_map.mpr ⟨j, List.mem_filter.mpr ⟨hj, hpp⟩, rfl⟩⟩)

/-- Witness for C10 at the all-zero 2 x 2 spectrogram. -/
theorem get_peak_points_nonempty_witness : get_peak_points (constZero 2 2) ≠ [] :=
  get_peak_points_nonempty (constZero 2 2) (by decide) (by decide)
    (by
      intro row hrow
      have hrow2 : row ∈ List.replicate 2 (List.replicate 2 (0 : ℚ)) := hrow
      have hrep : row = List.replicate 2 (0 : ℚ) :=
        List.eq_of_mem_replicate hrow2
      rw [hrep, colsOf_constZero 2 2 (by norm_num)]
      simp)

/-- Row-major coordinates of an `r x 2` grid, indexed linearly. -/
theorem rowMajor_two (r : Nat) :
    (List.range r).flatMap (fun i => (List.range 2).map (fun j => (i, j))) =
      (List.range (2 * r)).map (fun k => (k / 2, k % 2)) := by
  induction r with
  | zero => rfl
  | succ n ih =>
    have h2 : 2 * (n + 1) = 2 * n + 1 + 1 := by ring
    have hR : List.range (2 * (n + 1)) = List.range (2 * n) ++ [2 * n, 2 * n + 1] := by
      rw [h2, List.range_succ, List.range_succ, List.append_assoc]
      rfl
    rw [List.range_succ, List.flatMap_append, ih, hR, List.map_append]
    congr 1
    have ha : (2 * n) / 2 = n := by omega
    have hb : (2 * n) % 2 = 0 := by omega
    have hc : (2 * n + 1) / 2 = n := by omega
    have hd : (2 * n + 1) % 2 = 1 := by omega
    simp [ha, hb, hc, hd]
    rfl

/-- The peak list of the all-zero `1025 x 2` spectrogram, in closed form. -/
theorem get_peak_points_constZero_1025 :
    get_peak_points (constZero 1025 2) =
      (List.range 2050).map (fun k => (k / 2, k % 2)) := by
  rw [get_peak_points_constZero 1025 2 (by norm_num), rowMajor_two]

theorem getD_rowMajor_two (k : Nat) (h : k < 2050) :
    ((List.range 2050).map (fun k => (k / 2, k % 2))).getD k (0, 0) = (k / 2, k % 2) := by
  rw [List.getD_eq_getElem?_getD, List.getElem?_map, List.getElem?_range h]
  rfl

/-- C5 counterexample: on the all-zero `1025 x 2` spectrogram (1025 frequency
bins, as produced by an STFT with `n_fft = 2048`), the anchor peak at bin 1024
pairs with the peak at `(1024, 1)` with delta 1, emitting the hash
`(1024 << 18) | (1024 << 8) | 1 = 268697601`, which needs 29 bits. -/
theorem create_fingerprint_hash_width_counterexample :
    (268697601, 0) ∈ create_fingerprint (constZero 1025 2) ∧
      2 ^ 28 ≤ 268697601 := by
  refine ⟨?_, by norm_num⟩
  unfold create_fingerprint
  rw [mem_sortByTime, get_peak_points_constZero_1025]
  refine List.mem_flatMap.mpr ⟨2048, List.mem_range.mpr (by simp), ?_⟩
  unfold pairStep
  refine List.mem_filterMap.mpr ⟨0, by decide, ?_⟩
  rw [if_pos (by simp)]
  rw [getD_rowMajor_two 2048 (by norm_num), getD_rowMajor_two 2049 (by norm_num)]
  norm_num [min_time_delta, max_time_delta]
  decide

theorem get_peak_points_bin_lt (S : Spectrogram) :
    ∀ q ∈ get_peak_points S, q.1 < rowsOf S := by
  intro q hq
  unfold get_peak_points at hq
  rcases List.mem_flatMap.mp hq with ⟨i, hi, h2⟩
  rcases List.mem_map.mp h2 with ⟨j, _, hj⟩
  rw [← hj]
  exact List.mem_range.mp hi

/-- A packed hash of bins at most 1024 and a delta below 256 fits in 29 bits. -/
theorem generate_hash_lt_two_pow_29 (f1 f2 dt : Nat)
    (h1 : f1 ≤ 1024) (h2 : f2 ≤ 1024) (h3 : dt < 256) :
    generate_hash f1 f2 dt < 2 ^ 29 := by
  unfold generate_hash
  have b1 : f1 <<< 18 < 2 ^ 29 := by
    rw [Nat.shiftLeft_eq]
    calc f1 * 2 ^ 18 ≤ 1024 * 2 ^ 18 := Nat.mul_le_mul_right _ h1
      _ < 2 ^ 29 := by norm_num
  have b2 : f2 <<< 8 < 2 ^ 29 := by
    rw [Nat.shiftLeft_eq]
    calc f2 * 2 ^ 8 ≤ 1024 * 2 ^ 8 := Nat.mul_le_mul_right _ h2
      _ < 2 ^ 29 := by norm_num
  have b3 : dt < 2 ^ 29 := by
    calc dt < 256 := h3
      _ < 2 ^ 29 := by norm_num
  exact Nat.bitwise_lt_two_pow (Nat.bitwise_lt_two_pow b1 b2) b3

/-- C5 amended: for every spectrogram with at most 1025 frequency-bin rows
(the STFT yields `n_fft / 2 + 1 = 1025`), every hash emitted by
`create_fingerprint` fits in 29 bits; 28 bits is exceeded exactly when
bin 1024 occurs in a pair. -/
theorem create_fingerprint_hash_lt_two_pow_29 (S : Spectrogram)
    (hS : rowsOf S ≤ 1025) : ∀ p ∈ create_fingerprint S, p.1 < 2 ^ 29 := by
  intro p hp
  unfold create_fingerprint at hp
  rw [mem_sortByTime] at hp
  rcases List.mem_flatMap.mp hp with ⟨a, ha, hpair⟩
  unfold pairStep at hpair
  rcases List.mem_filterMap.mp hpair with ⟨k, _, heq⟩
  by_cases hb : a + (k + 1) < (get_peak_points S).length
  swap
  · rw [if_neg hb] at heq
    cases heq
  rw [if_pos hb] at heq
  set peaks := get_peak_points S with hpeaks
  set p1 := peaks.getD a (0, 0) with hp1
  set p2 := peaks.getD (a + (k + 1)) (0, 0) with hp2
  by_cases hdelta : min_time_delta ≤ (p2.2 : Int) - (p1.2 : Int) ∧
      (p2.2 : Int) - (p1.2 : Int) ≤ max_time_delta
  swap
  · rw [if_neg hdelta] at heq
    cases heq
  rw [if_pos hdelta] at heq
  have hmem1 : p1 ∈ peaks := by
    rw [hp1, List.getD_eq_getElem (peaks) (0, 0) (by omega)]
    exact List.getElem_mem _
  have hmem2 : p2 ∈ peaks := by
    rw [hp2, List.getD_eq_getElem (peaks) (0, 0) hb]
    exact List.getElem_mem _
  have hb1 : p1.1 < rowsOf S := get_peak_points_bin_lt S p1 hmem1
  have hb2 : p2.1 < rowsOf S := get_peak_points_bin_lt S p2 hmem2
  have hdt : ((p2.2 : Int) - (p1.2 : Int)).toNat < 256 := by
    rcases hdelta with ⟨_, hle⟩
    unfold max_time_delta at hle
    omega
  have hph : p = (generate_hash p1.1 p2.1 ((p2.2 : Int) - (p1.2 : Int)).toNat, p1.2) :=
    (Option.some_inj.mp heq).symm
  rw [hph]
  exact generate_hash_lt_two_pow_29 _ _ _ (by omega) (by omega) hdt

/-- The smallest fingerprint emitted on the all-zero 2 x 2 spectrogram. -/
theorem create_fingerprint_constZero_2_mem :
    (1, 0) ∈ create_fingerprint (constZero 2 2) := by
  have hP2 : get_peak_points (constZero 2 2) = [(0, 0), (0, 1), (1, 0), (1, 1)] := by
    rw [get_peak_points_constZero 2 2 (by norm_num)]
    rfl
  unfold create_fingerprint
  rw [mem_sortByTime, hP2]
  decide

/-- Witness for C5 amended on the all-zero 2 x 2 spectrogram. -/
theorem create_fingerprint_hash_lt_two_pow_29_witness :
    ((1, 0) : Nat × Nat).1 < 2 ^ 29 :=
  create_fingerprint_hash_lt_two_pow_29 (constZero 2 2) (by decide) (1, 0)
    create_fingerprint_constZero_2_mem

/-- C3. Ingesting a track whose `yt_url` already exists in the store commits
no new song row and no fingerprint rows, and returns no valid track id. -/
theorem create_and_store_fingerprint_duplicate (db : Store)
    (title author thumbnail video_id : String) (fps : List (Nat × Nat))
    (hdup : ∃ s ∈ db.songs, s.yt_url = video_id) :
    (create_and_store_fingerprint db title author thumbnail video_id fps).1.songs
        = db.songs ∧
    (create_and_store_fingerprint db title author thumbnail video_id fps).1.fingerprints
        = db.fingerprints ∧
    (create_and_store_fingerprint db title author thumbnail video_id fps).2 = none := by
  have hany : db.songs.any (fun s => s.yt_url == video_id) = true := by
    rcases hdup with ⟨s, hs, he⟩
    exact List.any_eq_true.mpr ⟨s, hs, by simp [he]⟩
  unfold create_and_store_fingerprint
  rw [if_pos hany]
  exact ⟨rfl, rfl, rfl⟩

/-- Witness for C3: re-ingesting `"abc"` into `dbDup` returns no id. -/
theorem create_and_store_fingerprint_duplicate_witness :
    (create_and_store_fingerprint dbDup "t2" "a2" "u2" "abc" [(5, 0)]).2 = none :=
  (create_and_store_fingerprint_duplicate dbDup "t2" "a2" "u2" "abc" [(5, 0)]
    ⟨⟨1, "t", "abc", "a", "u"⟩, by simp [dbDup], rfl⟩).2.2

/-- The rational suppression comparison agrees with the integer comparison
`10 * count < total`, enabling exact evaluation. -/
theorem filteredRows_eq_nat (db : List DbRow) (fp : List (Nat × Nat)) :
    filteredRows db fp = (queryOutput db fp).filter (fun r =>
      decide (10 * hashCount db fp r.1 < (queryOutput db fp).length)) := by
  unfold filteredRows
  apply List.filter_congr
  intro r _
  rw [decide_eq_decide, mul_one_div,
    lt_div_iff₀ (by norm_num : (0 : ℚ) < 10)]
  have hcast : ((hashCount db fp r.1 : ℚ) * 10 < ((queryOutput db fp).length : ℚ))
      ↔ (hashCount db fp r.1 * 10 < (queryOutput db fp).length) := by
    exact_mod_cast Iff.rfl
  rw [hcast, Nat.mul_comm]

/-- C4 counterexample: for the empty query fingerprint list the matcher
returns `None`, a distinct no-value outcome, not the empty list. -/
theorem match_empty_query_returns_none :
    match_fingerprints_from_db [] 0 [] = none ∧
      match_fingerprints_from_db [] 0 [] ≠ some [] := by
  have h : match_fingerprints_from_db [] 0 [] = none := rfl
  exact ⟨h, by rw [h]; simp⟩

/-- C8. Whenever the store lookup returns between 1 and 10 rows inclusive,
every row has a hash count of at least 1, which meets the suppression
threshold `rows * 0.10 <= 1`, so all rows are dropped and the matcher
returns `None` regardless of the query quality or the threshold. -/
theorem small_lookup_no_candidates (db : List DbRow) (fp : List (Nat × Nat))
    (thr : ℚ) (h1 : 1 ≤ (queryOutput db fp).length)
    (h10 : (queryOutput db fp).length ≤ 10) :
    match_fingerprints_from_db db thr fp = none := by
  have hfil : filteredRows db fp = [] := by
    rw [filteredRows_eq_nat, List.filter_eq_nil_iff]
    intro r hr
    have hc : 0 < hashCount db fp r.1 := List.countP_pos_iff.mpr ⟨r, hr, by simp⟩
    simp only [decide_eq_true_eq, not_lt]
    omega
  have hres : resultsOf db thr fp = [] := by
    unfold resultsOf topMatches matchCandidates votesOf
    rw [hfil]
    rfl
  unfold match_fingerprints_from_db
  rw [if_pos hres]

/-- Witness for C8: one stored row hit by the query, lookup size 1. -/
theorem small_lookup_no_candidates_witness :
    match_fingerprints_from_db db8 0 fp8 = none :=
  small_lookup_no_candidates db8 fp8 0 (by decide) (by decide)

theorem filteredRows_db6 : filteredRows db6 fp6 = [(100, 5, 1), (100, 3, 1)] := by
  rw [filteredRows_eq_nat]
  decide

theorem votesOf_db6 : votesOf db6 fp6 = [(1, [(5, 1), (3, 1)])] := by
  unfold votesOf
  rw [filteredRows_db6]
  decide

theorem topMatches_db6 : topMatches db6 fp6 = [(1, 5, 1)] := by
  unfold topMatches matchCandidates
  rw [votesOf_db6]
  decide

theorem resultsOf_db6 : resultsOf db6 0 fp6 = [(1, 5 / frame_rate, 1 / 2)] := by
  unfold resultsOf
  rw [topMatches_db6, filteredRows_db6]
  norm_num [List.filterMap_cons, List.filterMap_nil]

theorem match_db6 : match_fingerprints_from_db db6 0 fp6
    = some [(1, 5 / frame_rate, 1 / 2)] := by
  unfold match_fingerprints_from_db
  rw [resultsOf_db6, if_neg (by simp)]

/-- C6 counterexample: in `db6` the two offsets 5 and 3 of track 1 tie at one
vote each; the matcher keeps the first-inserted offset 5 — visible in the
returned timestamp `5 / frame_rate` — although the tied offset 3 is smaller. -/
theorem matcher_tie_break_counterexample :
    votesOf db6 fp6 = [(1, [(5, 1), (3, 1)])] ∧
    mostCommon1 [((5 : Int), 1), ((3 : Int), 1)] = (5, 1) ∧
    ((((3 : Int), 1) ∈ [((5 : Int), 1), ((3 : Int), 1)]) ∧ (3 : Int) < 5) ∧
    match_fingerprints_from_db db6 0 fp6 = some [(1, 5 / frame_rate, 1 / 2)] :=
  ⟨votesOf_db6, by decide, by decide, match_db6⟩

theorem filteredRows_db9 : filteredRows db9 fp9 = [(100, 5, 1)] := by
  rw [filteredRows_eq_nat]
  decide

theorem votesOf_db9 : votesOf db9 fp9 = [(1, [(5, 2)])] := by
  unfold votesOf
  rw [filteredRows_db9]
  decide

theorem topMatches_db9 : topMatches db9 fp9 = [(1, 5, 2)] := by
  unfold topMatches matchCandidates
  rw [votesOf_db9]
  decide

theorem resultsOf_db9_zero : resultsOf db9 0 fp9 = [(1, 5 / frame_rate, 2)] := by
  unfold resultsOf
  rw [topMatches_db9, filteredRows_db9]
  norm_num [List.filterMap_cons, List.filterMap_nil]

theorem resultsOf_db9_two : resultsOf db9 2 fp9 = [(1, 5 / frame_rate, 2)] := by
  unfold resultsOf
  rw [topMatches_db9, filteredRows_db9]
  norm_num [List.filterMap_cons, List.filterMap_nil]

theorem match_db9_zero : match_fingerprints_from_db db9 0 fp9
    = some [(1, 5 / frame_rate, 2)] := by
  unfold match_fingerprints_from_db
  rw [resultsOf_db9_zero, if_neg (by simp)]

theorem match_db9_two : match_fingerprints_from_db db9 2 fp9
    = some [(1, 5 / frame_rate, 2)] := by
  unfold match_fingerprints_from_db
  rw [resultsOf_db9_two, if_neg (by simp)]

/-- C9 amended: a returned confidence can exceed 1 when the query
fingerprint list repeats an identical `(hash, anchor_time)` entry: `fp9`
holds the entry `(100, 0)` twice, so the single surviving row contributes
two votes to offset 5 while the denominator counts that surviving row once,
giving confidence 2. -/
theorem confidence_can_exceed_one :
    ∃ l, match_fingerprints_from_db db9 0 fp9 = some l ∧
      ∃ p ∈ l, (1 : ℚ) < p.2.2 :=
  ⟨[(1, 5 / frame_rate, 2)], match_db9_zero, (1, 5 / frame_rate, 2),
    List.mem_singleton.mpr rfl, by norm_num⟩

/-- C7. Threshold monotonicity: every candidate returned under a larger
confidence threshold is also returned under a smaller one. -/
theorem threshold_monotone (db : List DbRow) (fp : List (Nat × Nat)) (t1 t2 : ℚ)
    (h12 : t1 ≤ t2) (x : Nat × ℚ × ℚ) (l2 : List (Nat × ℚ × ℚ))
    (hm : match_fingerprints_from_db db t2 fp = some l2) (hx : x ∈ l2) :
    ∃ l1, match_fingerprints_from_db db t1 fp = some l1 ∧ x ∈ l1 := by
  unfold match_fingerprints_from_db at hm
  by_cases h : resultsOf db t2 fp = []
  · rw [if_pos h] at hm
    cases hm
  · rw [if_neg h] at hm
    have hl2 : l2 = resultsOf db t2 fp := (Option.some_inj.mp hm).symm
    rw [hl2] at hx
    have hx1 : x ∈ resultsOf db t1 fp := by
      unfold resultsOf at hx ⊢
      rcases List.mem_filterMap.mp hx with ⟨c, hc, hfc⟩
      refine List.mem_filterMap.mpr ⟨c, hc, ?_⟩
      split_ifs at hfc with hcond
      rw [if_pos (le_trans h12 hcond)]
      exact hfc
    refine ⟨resultsOf db t1 fp, ?_, hx1⟩
    unfold match_fingerprints_from_db
    rw [if_neg (List.ne_nil_of_mem hx1)]

/-- Witness for C7: thresholds 0 and 2 on the `db9` store. -/
theorem threshold_monotone_witness :
    ∃ l1, match_fingerprints_from_db db9 0 fp9 = some l1 ∧
      ((1 : Nat), 5 / frame_rate, (2 : ℚ)) ∈ l1 :=
  threshold_monotone db9 fp9 0 2 (by norm_num) (1, 5 / frame_rate, 2) _
    match_db9_two (List.mem_singleton.mpr rfl)

theorem mostCommon1_cons_cons (x y : Int × Nat) (rest : List (Int × Nat)) :
    mostCommon1 (x :: y :: rest) =
      if (mostCommon1 (y :: rest)).2 > x.2 then mostCommon1 (y :: rest) else x := rfl

/-- The entry picked by `most_common(1)` is in the counter, has maximal
count, and is the first entry of maximal count in insertion order. -/
theorem mostCommon1_spec (counter : List (Int × Nat)) (hne : counter ≠ []) :
    mostCommon1 counter ∈ counter ∧
    (∀ p ∈ counter, p.2 ≤ (mostCommon1 counter).2) ∧
    counter.find? (fun p => decide ((mostCommon1 counter).2 ≤ p.2))
      = some (mostCommon1 counter) := by
  induction counter with
  | nil => exact absurd rfl hne
  | cons x rest ih =>
    cases rest with
    | nil =>
      refine ⟨List.mem_singleton.mpr rfl, ?_, ?_⟩
      · intro p hp
        rw [List.mem_singleton.mp hp]
        exact le_refl _
      · simp [List.find?, mostCommon1]
    | cons y rest2 =>
      obtain ⟨ihmem, ihmax, ihfind⟩ := ih (by simp)
      rw [mostCommon1_cons_cons]
      by_cases hgt : (mostCommon1 (y :: rest2)).2 > x.2
      · rw [if_pos hgt]
        refine ⟨List.mem_cons_of_mem x ihmem, ?_, ?_⟩
        · intro p hp
          rcases List.mem_cons.mp hp with h | h
          · rw [h]; exact le_of_lt hgt
          · exact ihmax p h
        · rw [List.find?_cons_of_neg _ (by simp; omega)]
          exact ihfind
      · rw [if_neg hgt]
        refine ⟨List.mem_cons_self x _, ?_, ?_⟩
        · intro p hp
          rcases List.mem_cons.mp hp with h | h
          · rw [h]
          · exact le_trans (ihmax p h) (Nat.le_of_not_lt hgt)
        · rw [List.find?_cons_of_pos _ (by simp)]

theorem mem_insertDesc (z x : Nat × Int × Nat) (l : List (Nat × Int × Nat)) :
    z ∈ insertDesc x l ↔ z = x ∨ z ∈ l := by
  induction l with
  | nil => simp [insertDesc]
  | cons y ys ih =>
    unfold insertDesc
    split
    · simp
    · simp only [List.mem_cons, ih]
      tauto

theorem sorted_insertDesc (x : Nat × Int × Nat) (l : List (Nat × Int × Nat))
    (h : List.Sorted countGE l) : List.Sorted countGE (insertDesc x l) := by
  induction l with
  | nil => simp [insertDesc, List.Sorted]
  | cons y ys ih =>
    rcases List.sorted_cons.mp h with ⟨hy, hys⟩
    unfold insertDesc
    by_cases hxy : x.2.2 ≥ y.2.2
    · rw [if_pos hxy, List.sorted_cons]
      refine ⟨?_, h⟩
      intro z hz
      rcases List.mem_cons.mp hz with h2 | h2
      · rw [h2]; exact hxy
      · exact le_trans (hy z h2) hxy
    · rw [if_neg hxy, List.sorted_cons]
      refine ⟨?_, ih hys⟩
      intro z hz
      rcases (mem_insertDesc z x ys).mp hz with h2 | h2
      · rw [h2]
        exact le_of_not_le hxy
      · exact hy z h2

theorem sorted_sortDesc (l : List (Nat × Int × Nat)) :
    List.Sorted countGE (sortDesc l) := by
  induction l with
  | nil => simp [sortDesc]
  | cons x xs ih => exact sorted_insertDesc x (sortDesc xs) ih

theorem filter_insertDesc (x : Nat × Int × Nat) (l : List (Nat × Int × Nat)) (c : Nat) :
    (insertDesc x l).filter (fun z => z.2.2 == c) =
      if x.2.2 == c then x :: l.filter (fun z => z.2.2 == c)
      else l.filter (fun z => z.2.2 == c) := by
  induction l with
  | nil =>
    unfold insertDesc
    rw [List.filter_cons]
  | cons y ys ih =>
    unfold insertDesc
    by_cases hxy : x.2.2 ≥ y.2.2
    · rw [if_pos hxy, List.filter_cons]
    · rw [if_neg hxy]
      by_cases hpx : (x.2.2 == c) = true
      · by_cases hpy : (y.2.2 == c) = true
        · exfalso
          have e1 : x.2.2 = c := by simpa using hpx
          have e2 : y.2.2 = c := by simpa using hpy
          omega
        · simp [List.filter_cons, ih, hpx, hpy]
      · simp [List.filter_cons, ih, hpx]

/-- The descending sort is stable: for each count value, the candidates
carrying it appear in their original order. -/
theorem filter_sortDesc (l : List (Nat × Int × Nat)) (c : Nat) :
    (sortDesc l).filter (fun z => z.2.2 == c) = l.filter (fun z => z.2.2 == c) := by
  induction l with
  | nil => rfl
  | cons x xs ih =>
    show (insertDesc x (sortDesc xs)).filter _ = _
    rw [filter_insertDesc, ih, List.filter_cons]

/-- C6 amended: vote-count ties are broken by insertion order, not by value:
`most_common(1)` returns the earliest-inserted offset among those of maximal
count, and the candidate ranking is a stable descending sort by count
(equal-count candidates keep their `votes.items()` order; no track-id or
offset comparison takes place). -/
theorem matcher_tie_break_amended :
    (∀ counter : List (Int × Nat), counter ≠ [] →
      mostCommon1 counter ∈ counter ∧
      (∀ p ∈ counter, p.2 ≤ (mostCommon1 counter).2) ∧
      counter.find? (fun p => decide ((mostCommon1 counter).2 ≤ p.2))
        = some (mostCommon1 counter)) ∧
    (∀ (l : List (Nat × Int × Nat)) (c : Nat),
      List.Sorted countGE (sortDesc l) ∧
      (sortDesc l).filter (fun z => z.2.2 == c) = l.filter (fun z => z.2.2 == c)) :=
  ⟨fun counter hne => mostCommon1_spec counter hne,
   fun l c => ⟨sorted_sortDesc l, filter_sortDesc l c⟩⟩

/-- Witness for C6 amended on the tied counter of `db6`. -/
theorem matcher_tie_break_amended_witness :
    mostCommon1 [((5 : Int), 1), ((3 : Int), 1)] ∈ [((5 : Int), 1), ((3 : Int), 1)] :=
  (matcher_tie_break_amended.1 [(5, 1), (3, 1)] (by simp)).1

/-- Pairwise relations survive `filterMap` when the mapping is relation
preserving. -/
theorem pairwise_filterMap_of {α β : Type} (R : α → α → Prop) (R2 : β → β → Prop)
    (f : α → Option β)
    (hf : ∀ a b x y, R a b → f a = some x → f b = some y → R2 x y) :
    ∀ l : List α, List.Pairwise R l → List.Pairwise R2 (l.filterMap f) := by
  intro l
  induction l with
  | nil => intro _; simp
  | cons a as ih =>
    intro hl
    rcases List.pairwise_cons.mp hl with ⟨ha, ht⟩
    rw [List.filterMap_cons]
    cases hfa : f a with
    | none => exact ih ht
    | some x =>
      rw [List.pairwise_cons]
      refine ⟨?_, ih ht⟩
      intro y hy
      rcases List.mem_filterMap.mp hy with ⟨b, hb, hfb⟩
      exact hf a b x y (ha b hb) hfa hfb

/-- The result list is ordered by confidence, highest first. -/
theorem resultsOf_sorted (db : List DbRow) (thr : ℚ) (fp : List (Nat × Nat)) :
    List.Sorted confGE (resultsOf db thr fp) := by
  unfold resultsOf
  refine pairwise_filterMap_of countGE confGE _ ?_ _ ?_
  · intro a b x y hab hfa hfb
    split_ifs at hfa hfb with h1 h2
    have hx := Option.some_inj.mp hfa
    have hy := Option.some_inj.mp hfb
    rw [← hx, ← hy]
    unfold confGE
    have hD : (0 : ℚ) < ((max 1 (filteredRows db fp).length : Nat) : ℚ) := by
      exact_mod_cast Nat.lt_of_lt_of_le Nat.zero_lt_one (Nat.le_max_left 1 _)
    exact (div_le_div_iff_of_pos_right hD).mpr (Nat.cast_le.mpr hab)
  · unfold topMatches
    exact List.Pairwise.sublist (List.take_sublist 3 _)
      (sorted_sortDesc (matchCandidates db fp))

/-- C4 amended: the matcher returns an optional list: `None` when no
candidate survives (in particular for an empty query fingerprint list), and
otherwise `Some` of the nonempty candidate list ordered by confidence,
highest first. -/
theorem match_result_shape (db : List DbRow) (thr : ℚ) (fp : List (Nat × Nat)) :
    (match_fingerprints_from_db db thr fp = none ∧ resultsOf db thr fp = []) ∨
    (∃ l, match_fingerprints_from_db db thr fp = some l ∧ l ≠ [] ∧
      List.Sorted confGE l) := by
  by_cases h : resultsOf db thr fp = []
  · left
    exact ⟨by unfold match_fingerprints_from_db; rw [if_pos h], h⟩
  · right
    exact ⟨resultsOf db thr fp,
      by unfold match_fingerprints_from_db; rw [if_neg h], h,
      resultsOf_sorted db thr fp⟩

theorem innerCount_bumpInner_same (cnt : List (Int × Nat)) (d : Int) :
    innerCount (bumpInner cnt d) d = innerCount cnt d + 1 := by
  induction cnt with
  | nil => simp [innerCount, bumpInner]
  | cons kc rest ih =>
    obtain ⟨k, c⟩ := kc
    by_cases hk : (k == d) = true
    · simp [innerCount, bumpInner, hk]
    · simp only [innerCount, bumpInner, hk] at ih ⊢
      simp only [if_false, Bool.false_eq_true]
      rw [List.find?_cons_of_neg _ (by simpa using hk),
        List.find?_cons_of_neg _ (by simpa using hk)]
      exact ih

theorem innerCount_bumpInner_other (cnt : List (Int × Nat)) (d e : Int)
    (hne : e ≠ d) : innerCount (bumpInner cnt d) e = innerCount cnt e := by
  have hde : (d == e) = false := by simp only [beq_eq_false_iff_ne]; omega
  induction cnt with
  | nil => simp [innerCount, bumpInner, hde]
  | cons kc rest ih =>
    obtain ⟨k, c⟩ := kc
    by_cases hk : (k == d) = true
    · have hk2 : (k == e) = false := by
        have : k = d := by simpa using hk
        simp only [beq_eq_false_iff_ne]
        omega
      simp [innerCount, bumpInner, hk, hk2]
    · by_cases hk2 : (k == e) = true
      · simp [innerCount, bumpInner, hk, hk2]
      · simp only [innerCount, bumpInner, hk] at ih ⊢
        simp only [if_false, Bool.false_eq_true]
        rw [List.find?_cons_of_neg _ (by simpa using hk2),
          List.find?_cons_of_neg _ (by simpa using hk2)]
        exact ih

theorem voteCount_bumpVotes_same (v : List (Nat × List (Int × Nat)))
    (sid : Nat) (d : Int) :
    voteCount (bumpVotes v sid d) sid d = voteCount v sid d + 1 := by
  induction v with
  | nil => simp [voteCount, bumpVotes, innerCount]
  | cons sc rest ih =>
    obtain ⟨s, cnt⟩ := sc
    by_cases hs : (s == sid) = true
    · simp only [voteCount, bumpVotes, hs, if_true]
      rw [@List.find?_cons_of_pos _ (fun sc => sc.1 == sid) (s, bumpInner cnt d) rest hs,
        @List.find?_cons_of_pos _ (fun sc => sc.1 == sid) (s, cnt) rest hs]
      exact innerCount_bumpInner_same cnt d
    · simp only [voteCount, bumpVotes, hs] at ih ⊢
      simp only [if_false, Bool.false_eq_true]
      rw [List.find?_cons_of_neg _ (by simpa using hs),
        List.find?_cons_of_neg _ (by simpa using hs)]
      exact ih

theorem voteCount_bumpVotes_other (v : List (Nat × List (Int × Nat)))
    (sid : Nat) (d : Int) (sid2 : Nat) (e : Int)
    (h : ¬(sid2 = sid ∧ e = d)) :
    voteCount (bumpVotes v sid d) sid2 e = voteCount v sid2 e := by
  induction v with
  | nil =>
    by_cases hs : (sid == sid2) = true
    · have hd : (d == e) = false := by
        have : sid = sid2 := by simpa using hs
        simp only [beq_eq_false_iff_ne]
        intro hde
        exact h ⟨by omega, by omega⟩
      simp [voteCount, bumpVotes, innerCount, hs, hd]
    · simp [voteCount, bumpVotes, hs]
  | cons sc rest ih =>
    obtain ⟨s, cnt⟩ := sc
    by_cases hs : (s == sid) = true
    · by_cases hs2 : (s == sid2) = true
      · simp only [voteCount, bumpVotes, hs, if_true]
        rw [@List.find?_cons_of_pos _ (fun sc => sc.1 == sid2) (s, bumpInner cnt d) rest hs2,
          @List.find?_cons_of_pos _ (fun sc => sc.1 == sid2) (s, cnt) rest hs2]
        have e1 : s = sid := by simpa using hs
        have e2 : s = sid2 := by simpa using hs2
        have hd : e ≠ d := fun hdd => h ⟨by omega, hdd⟩
        exact innerCount_bumpInner_other cnt d e hd
      · simp only [voteCount, bumpVotes, hs, if_true]
        rw [List.find?_cons_of_neg _ (by simpa using hs2),
          List.find?_cons_of_neg _ (by simpa using hs2)]
    · by_cases hs2 : (s == sid2) = true
      · simp only [voteCount, bumpVotes, hs]
        simp only [if_false, Bool.false_eq_true]
        rw [@List.find?_cons_of_pos _ (fun sc => sc.1 == sid2) (s, cnt) (bumpVotes rest sid d) hs2,
          @List.find?_cons_of_pos _ (fun sc => sc.1 == sid2) (s, cnt) rest hs2]
      · simp only [voteCount, bumpVotes, hs] at ih ⊢
        simp only [if_false, Bool.false_eq_true]
        rw [List.find?_cons_of_neg _ (by simpa using hs2),
          List.find?_cons_of_neg _ (by simpa using hs2)]
        exact ih

theorem lookupTimes_nodup (m : List (Nat × List Nat)) (h : Nat)
    (hm : ∀ kv ∈ m, kv.2.Nodup) : (lookupTimes m h).Nodup := by
  unfold lookupTimes
  cases hf : m.find? (fun kv => kv.1 == h) with
  | none => simp
  | some kv =>
    have hkv := List.mem_of_find?_eq_some hf
    simpa using hm kv hkv

/-- A row whose hash times never produce the offset `d` for track `sid`
leaves `votes[sid][d]` unchanged. -/
theorem voteCount_rowFold_eq (r : DbRow) (sid : Nat) (d : Int)
    (times : List Nat)
    (hno : ∀ t ∈ times, ¬(¬((r.2.1 : Int) - (t : Int) < 0) ∧ r.2.2 = sid ∧
      (r.2.1 : Int) - (t : Int) = d)) :
    ∀ v, voteCount (times.foldl (fun v2 (t : Nat) =>
        if ((r.2.1 : Int) - (t : Int)) < 0 then v2
        else bumpVotes v2 r.2.2 ((r.2.1 : Int) - (t : Int))) v) sid d
      = voteCount v sid d := by
  induction times with
  | nil => intro v; rfl
  | cons t ts ih =>
    intro v
    rw [List.foldl_cons]
    have htail := ih (fun t2 ht2 => hno t2 (List.mem_cons_of_mem t ht2))
    by_cases hlt : ((r.2.1 : Int) - (t : Int)) < 0
    · rw [if_pos hlt]
      exact htail v
    · rw [if_neg hlt, htail _]
      apply voteCount_bumpVotes_other
      intro he
      exact hno t (List.mem_cons_self t ts) ⟨hlt, he.1.symm, he.2.symm⟩

/-- With pairwise-distinct hash times, one row adds at most one vote to any
fixed `votes[sid][d]`: for a fixed offset at most one time aligns. -/
theorem voteCount_rowFold_le (r : DbRow) (sid : Nat) (d : Int) :
    ∀ times : List Nat, times.Nodup →
    ∀ v, voteCount (times.foldl (fun v2 (t : Nat) =>
        if ((r.2.1 : Int) - (t : Int)) < 0 then v2
        else bumpVotes v2 r.2.2 ((r.2.1 : Int) - (t : Int))) v) sid d
      ≤ voteCount v sid d + 1 := by
  intro times
  induction times with
  | nil => intro _ v; exact Nat.le_succ _
  | cons t ts ih =>
    intro hnd v
    obtain ⟨hnt, hnd2⟩ := List.nodup_cons.mp hnd
    rw [List.foldl_cons]
    by_cases hlt : ((r.2.1 : Int) - (t : Int)) < 0
    · rw [if_pos hlt]
      exact ih hnd2 v
    · rw [if_neg hlt]
      by_cases htr : r.2.2 = sid ∧ (r.2.1 : Int) - (t : Int) = d
      · have hno : ∀ t2 ∈ ts, ¬(¬((r.2.1 : Int) - (t2 : Int) < 0) ∧ r.2.2 = sid ∧
            (r.2.1 : Int) - (t2 : Int) = d) := by
          intro t2 ht2 hcon
          have he2 : (r.2.1 : Int) - (t : Int) = d := htr.2
          have he3 : (r.2.1 : Int) - (t2 : Int) = d := hcon.2.2
          have heq : t2 = t := by omega
          exact hnt (heq ▸ ht2)
        rw [voteCount_rowFold_eq r sid d ts hno _, htr.1, htr.2,
          voteCount_bumpVotes_same]
      · have hother : ¬(sid = r.2.2 ∧ d = (r.2.1 : Int) - (t : Int)) :=
          fun hc => htr ⟨hc.1.symm, hc.2.symm⟩
        calc voteCount (ts.foldl (fun v2 (t : Nat) =>
              if ((r.2.1 : Int) - (t : Int)) < 0 then v2
              else bumpVotes v2 r.2.2 ((r.2.1 : Int) - (t : Int)))
              (bumpVotes v r.2.2 ((r.2.1 : Int) - (t : Int)))) sid d
            ≤ voteCount (bumpVotes v r.2.2 ((r.2.1 : Int) - (t : Int))) sid d + 1 :=
              ih hnd2 _
          _ = voteCount v sid d + 1 := by
              rw [voteCount_bumpVotes_other _ _ _ _ _ hother]

/-- Processing rows adds at most one vote per row to any fixed
`votes[sid][d]` when the per-hash time lists are duplicate-free. -/
theorem voteCount_votesFrom_le (fp : List (Nat × Nat))
    (hdist : ∀ kv ∈ buildHashValues fp, kv.2.Nodup) (sid : Nat) (d : Int) :
    ∀ (rows : List DbRow) (v : List (Nat × List (Int × Nat))),
      voteCount (rows.foldl (fun v r =>
        (lookupTimes (buildHashValues fp) r.1).foldl (fun v2 (t : Nat) =>
          if ((r.2.1 : Int) - (t : Int)) < 0 then v2
          else bumpVotes v2 r.2.2 ((r.2.1 : Int) - (t : Int))) v) v) sid d
      ≤ voteCount v sid d + rows.length := by
  intro rows
  induction rows with
  | nil => intro v; simp
  | cons r rs ih =>
    intro v
    rw [List.foldl_cons]
    have hstep := voteCount_rowFold_le r sid d
      (lookupTimes (buildHashValues fp) r.1)
      (lookupTimes_nodup _ _ hdist) v
    have htail := ih ((lookupTimes (buildHashValues fp) r.1).foldl (fun v2 (t : Nat) =>
        if ((r.2.1 : Int) - (t : Int)) < 0 then v2
        else bumpVotes v2 r.2.2 ((r.2.1 : Int) - (t : Int))) v)
    simp only [List.length_cons]
    omega

/-- Any vote count in the matcher is bounded by the surviving row total. -/
theorem voteCount_votesOf_le (db : List DbRow) (fp : List (Nat × Nat))
    (hdist : ∀ kv ∈ buildHashValues fp, kv.2.Nodup) (sid : Nat) (d : Int) :
    voteCount (votesOf db fp) sid d ≤ (filteredRows db fp).length := by
  have hmain := voteCount_votesFrom_le fp hdist sid d (filteredRows db fp) []
  have h0 : voteCount ([] : List (Nat × List (Int × Nat))) sid d = 0 := rfl
  unfold votesOf votesFrom
  omega

theorem mem_keys_bumpInner (cnt : List (Int × Nat)) (d x : Int) :
    x ∈ (bumpInner cnt d).map (fun p => p.1) ↔
      x ∈ cnt.map (fun p => p.1) ∨ x = d := by
  induction cnt with
  | nil => simp [bumpInner]
  | cons kc rest ih =>
    obtain ⟨k, c⟩ := kc
    by_cases hk : (k == d) = true
    · have e : k = d := by simpa using hk
      simp only [bumpInner, hk, if_true, List.map_cons, List.mem_cons]
      constructor
      · tauto
      · rintro ((h1 | h2) | h3)
        · exact Or.inl h1
        · exact Or.inr h2
        · exact Or.inl (by omega)
    · simp only [bumpInner, hk, Bool.false_eq_true, if_false, List.map_cons,
        List.mem_cons, ih]
      tauto

theorem nodup_keys_bumpInner (cnt : List (Int × Nat)) (d : Int)
    (h : (cnt.map (fun p => p.1)).Nodup) :
    ((bumpInner cnt d).map (fun p => p.1)).Nodup := by
  induction cnt with
  | nil => simp [bumpInner]
  | cons kc rest ih =>
    obtain ⟨k, c⟩ := kc
    simp only [List.map_cons, List.nodup_cons] at h
    obtain ⟨hk1, hk2⟩ := h
    by_cases hk : (k == d) = true
    · simp only [bumpInner, hk, if_true, List.map_cons, List.nodup_cons]
      exact ⟨hk1, hk2⟩
    · simp only [bumpInner, hk, Bool.false_eq_true, if_false, List.map_cons,
        List.nodup_cons]
      refine ⟨?_, ih hk2⟩
      rw [mem_keys_bumpInner]
      rintro (h1 | h2)
      · exact hk1 h1
      · rw [h2] at hk
        simp at hk

theorem mem_keys_bumpVotes (v : List (Nat × List (Int × Nat)))
    (sid : Nat) (d : Int) (x : Nat) :
    x ∈ (bumpVotes v sid d).map (fun sc => sc.1) ↔
      x ∈ v.map (fun sc => sc.1) ∨ x = sid := by
  induction v with
  | nil => simp [bumpVotes]
  | cons sc0 rest ih =>
    obtain ⟨s, cnt⟩ := sc0
    by_cases hs : (s == sid) = true
    · have e : s = sid := by simpa using hs
      simp only [bumpVotes, hs, if_true, List.map_cons, List.mem_cons]
      constructor
      · tauto
      · rintro ((h1 | h2) | h3)
        · exact Or.inl h1
        · exact Or.inr h2
        · exact Or.inl (by omega)
    · simp only [bumpVotes, hs, Bool.false_eq_true, if_false, List.map_cons,
        List.mem_cons, ih]
      tauto

theorem WFVotes_nil : WFVotes [] := ⟨List.nodup_nil, by simp⟩

theorem WFVotes_bumpVotes : ∀ (v : List (Nat × List (Int × Nat)))
    (sid : Nat) (d : Int), WFVotes v → WFVotes (bumpVotes v sid d) := by
  intro v
  induction v with
  | nil =>
    intro sid d _
    refine ⟨by simp [bumpVotes], ?_⟩
    intro sc hsc
    simp only [bumpVotes, List.mem_singleton] at hsc
    rw [hsc]
    simp
  | cons sc0 rest ih =>
    intro sid d h
    obtain ⟨s, cnt⟩ := sc0
    obtain ⟨h1, h2⟩ := h
    simp only [List.map_cons, List.nodup_cons] at h1
    obtain ⟨hs1, hs2⟩ := h1
    by_cases hs : (s == sid) = true
    · simp only [bumpVotes, hs, if_true]
      refine ⟨by simp only [List.map_cons, List.nodup_cons]; exact ⟨hs1, hs2⟩, ?_⟩
      intro sc hsc
      rcases List.mem_cons.mp hsc with he | hm
      · rw [he]
        exact nodup_keys_bumpInner cnt d (h2 (s, cnt) (List.mem_cons_self _ _))
      · exact h2 sc (List.mem_cons_of_mem _ hm)
    · have ihr := ih sid d ⟨hs2, fun sc hsc => h2 sc (List.mem_cons_of_mem _ hsc)⟩
      simp only [bumpVotes, hs, Bool.false_eq_true, if_false]
      refine ⟨?_, ?_⟩
      · simp only [List.map_cons, List.nodup_cons]
        refine ⟨?_, ihr.1⟩
        rw [mem_keys_bumpVotes]
        rintro (hm | he)
        · exact hs1 hm
        · rw [he] at hs
          simp at hs
      · intro sc hsc
        rcases List.mem_cons.mp hsc with he | hm
        · rw [he]
          exact h2 (s, cnt) (List.mem_cons_self _ _)
        · exact ihr.2 sc hm

theorem WFVotes_rowFold (r : DbRow) : ∀ (times : List Nat)
    (v : List (Nat × List (Int × Nat))), WFVotes v →
    WFVotes (times.foldl (fun v2 (t : Nat) =>
      if ((r.2.1 : Int) - (t : Int)) < 0 then v2
      else bumpVotes v2 r.2.2 ((r.2.1 : Int) - (t : Int))) v) := by
  intro times
  induction times with
  | nil => intro v h; exact h
  | cons t ts ih =>
    intro v h
    rw [List.foldl_cons]
    apply ih
    by_cases hlt : ((r.2.1 : Int) - (t : Int)) < 0
    · rw [if_pos hlt]
      exact h
    · rw [if_neg hlt]
      exact WFVotes_bumpVotes _ _ _ h

theorem WFVotes_votesOf (db : List DbRow) (fp : List (Nat × Nat)) :
    WFVotes (votesOf db fp) := by
  unfold votesOf votesFrom
  suffices h : ∀ (rows : List DbRow) (v : List (Nat × List (Int × Nat))),
      WFVotes v → WFVotes (rows.foldl (fun v r =>
        (lookupTimes (buildHashValues fp) r.1).foldl (fun v2 (t : Nat) =>
          if ((r.2.1 : Int) - (t : Int)) < 0 then v2
          else bumpVotes v2 r.2.2 ((r.2.1 : Int) - (t : Int))) v) v) by
    exact h _ _ WFVotes_nil
  intro rows
  induction rows with
  | nil => intro v h; exact h
  | cons r rs ih =>
    intro v h
    rw [List.foldl_cons]
    exact ih _ (WFVotes_rowFold r _ _ h)

theorem innerCount_of_mem : ∀ (counter : List (Int × Nat)) (d : Int) (cnt : Nat),
    (counter.map (fun p => p.1)).Nodup → (d, cnt) ∈ counter →
    innerCount counter d = cnt := by
  intro counter
  induction counter with
  | nil => intro d cnt _ hm; cases hm
  | cons kc rest ih =>
    intro d cnt hnd hm
    obtain ⟨k, c⟩ := kc
    simp only [List.map_cons, List.nodup_cons] at hnd
    obtain ⟨hk1, hk2⟩ := hnd
    rcases List.mem_cons.mp hm with he | hm2
    · have hdk : d = k ∧ cnt = c := by simpa [Prod.ext_iff] using he
      unfold innerCount
      rw [@List.find?_cons_of_pos _ (fun p => p.1 == d) (k, c) rest
        (by simp [hdk.1])]
      simp [hdk.2]
    · have hkd : ¬((k == d) = true) := by
        simp only [beq_iff_eq]
        intro hkd
        subst hkd
        exact hk1 (List.mem_map.mpr ⟨(k, cnt), hm2, rfl⟩)
      unfold innerCount
      rw [@List.find?_cons_of_neg _ (fun p => p.1 == d) (k, c) rest hkd]
      exact ih d cnt hk2 hm2

theorem voteCount_of_mem : ∀ (v : List (Nat × List (Int × Nat)))
    (sid : Nat) (counter : List (Int × Nat)) (d : Int) (cnt : Nat),
    WFVotes v → (sid, counter) ∈ v → (d, cnt) ∈ counter →
    voteCount v sid d = cnt := by
  intro v
  induction v with
  | nil => intro sid counter d cnt _ hmv _; cases hmv
  | cons sc0 rest ih =>
    intro sid counter d cnt hwf hmv hmc
    obtain ⟨s, cs⟩ := sc0
    obtain ⟨h1, h2⟩ := hwf
    simp only [List.map_cons, List.nodup_cons] at h1
    obtain ⟨hs1, hs2⟩ := h1
    rcases List.mem_cons.mp hmv with he | hm2
    · have hse : sid = s ∧ counter = cs := by simpa [Prod.ext_iff] using he
      unfold voteCount
      rw [@List.find?_cons_of_pos _ (fun sc => sc.1 == sid) (s, cs) rest
        (by simp [hse.1])]
      show innerCount cs d = cnt
      rw [← hse.2]
      exact innerCount_of_mem counter d cnt
        (by rw [hse.2]; exact h2 (s, cs) (List.mem_cons_self _ _))
        hmc
    · have hsd : ¬((s == sid) = true) := by
        simp only [beq_iff_eq]
        intro hsd
        subst hsd
        exact hs1 (List.mem_map.mpr ⟨(s, counter), hm2, rfl⟩)
      unfold voteCount
      rw [@List.find?_cons_of_neg _ (fun sc => sc.1 == sid) (s, cs) rest hsd]
      exact ih sid counter d cnt
        ⟨hs2, fun sc h => h2 sc (List.mem_cons_of_mem _ h)⟩ hm2 hmc

theorem mem_sortDesc (z : Nat × Int × Nat) (l : List (Nat × Int × Nat)) :
    z ∈ sortDesc l ↔ z ∈ l := by
  induction l with
  | nil => simp [sortDesc]
  | cons x xs ih =>
    show z ∈ insertDesc x (sortDesc xs) ↔ _
    rw [mem_insertDesc, ih]
    simp

/-- Within a query whose hashes each occur at pairwise distinct anchor
times, every returned confidence is at most 1: each surviving row then
contributes at most one vote to any fixed offset, so the winning count never
exceeds the number of surviving rows, which is the confidence denominator. -/
theorem resultsOf_confidence_le_one (db : List DbRow) (thr : ℚ)
    (fp : List (Nat × Nat))
    (hdist : ∀ kv ∈ buildHashValues fp, kv.2.Nodup) :
    ∀ p ∈ resultsOf db thr fp, p.2.2 ≤ 1 := by
  intro p hp
  unfold resultsOf at hp
  rcases List.mem_filterMap.mp hp with ⟨c, hc, hfc⟩
  split_ifs at hfc with hcond
  have hpe := Option.some_inj.mp hfc
  unfold topMatches at hc
  have hc2 : c ∈ sortDesc (matchCandidates db fp) := List.mem_of_mem_take hc
  have hc3 : c ∈ matchCandidates db fp := (mem_sortDesc c _).mp hc2
  unfold matchCandidates at hc3
  rcases List.mem_map.mp hc3 with ⟨sc, hsc, hce⟩
  have hbound : c.2.2 ≤ (filteredRows db fp).length := by
    rw [← hce]
    show (mostCommon1 sc.2).2 ≤ _
    by_cases hne : sc.2 = []
    · rw [hne]
      exact Nat.zero_le _
    · obtain ⟨hmm1, -, -⟩ := mostCommon1_spec sc.2 hne
      have hvc : voteCount (votesOf db fp) sc.1 (mostCommon1 sc.2).1
          = (mostCommon1 sc.2).2 :=
        voteCount_of_mem (votesOf db fp) sc.1 sc.2 (mostCommon1 sc.2).1
          (mostCommon1 sc.2).2 (WFVotes_votesOf db fp) hsc hmm1
      rw [← hvc]
      exact voteCount_votesOf_le db fp hdist _ _
  rw [← hpe]
  show (c.2.2 : ℚ) / ((max 1 (filteredRows db fp).length : Nat) : ℚ) ≤ 1
  have hD : (0 : ℚ) < ((max 1 (filteredRows db fp).length : Nat) : ℚ) := by
    exact_mod_cast Nat.lt_of_lt_of_le Nat.zero_lt_one (Nat.le_max_left 1 _)
  rw [div_le_one hD]
  exact_mod_cast le_trans hbound (Nat.le_max_right 1 _)

/-- C9 counterexample: the claimed scenario is impossible. Whenever every
hash of the query occurs at pairwise distinct anchor times, no returned
candidate has confidence above 1, whatever the store contents and
threshold, so the proposition stating the claim is false. -/
theorem distinct_times_confidence_claim_false : ¬ distinctTimesConfidenceClaim := by
  intro hclaim
  obtain ⟨db, thr, fp, hdist, -, l, hm, p, hpl, hgt⟩ := hclaim
  unfold match_fingerprints_from_db at hm
  by_cases h : resultsOf db thr fp = []
  · rw [if_pos h] at hm
    cases hm
  · rw [if_neg h] at hm
    have hl : l = resultsOf db thr fp := (Option.some_inj.mp hm).symm
    rw [hl] at hpl
    have := resultsOf_confidence_le_one db thr fp hdist p hpl
    linarith

end MusicWizard
